import Mathlib

/-!
Verification of the chunking core of the EU-AI-Act retrieval system
(`src/chunking.py`), against its natural-language specification.

Texts are modelled as lists of characters (`Str`).  The external token
counter (`tiktoken`) is modelled as an explicit parameter
`tok : Str → Nat`; the source's `count_tokens` is a thin wrapper around
that external encoder, and every theorem quantifies over `tok` (adding a
sanity hypothesis on `tok` only where a statement genuinely needs one).
All other definitions are direct translations of `src/chunking.py`.
-/

namespace AIAct

/-- Text is modelled as a list of characters. -/
abbrev Str := List Char

/-- Whitespace characters (the ASCII whitespace stripped by Python's
`str.strip()` and matched by `\s`). -/
def isWS (c : Char) : Bool :=
  c = ' ' || c = '\t' || c = '\n' || c = '\r' || c = '\x0b' || c = '\x0c'

/-- Remove leading whitespace (Python `str.lstrip()`). -/
def lstrip (s : Str) : Str := s.dropWhile isWS

/-- Remove trailing whitespace (Python `str.rstrip()`). -/
def rstrip (s : Str) : Str := (s.reverse.dropWhile isWS).reverse

/-- Remove leading and trailing whitespace (Python `str.strip()`). -/
def strip (s : Str) : Str := rstrip (lstrip s)

/-- The non-whitespace content of a text, in order.  Two texts are "equal
up to whitespace differences" exactly when their `content`s are equal. -/
def content (s : Str) : Str := s.filter (fun c => !isWS c)

/-- Decimal digit characters, as produced by Python's `str(n)` / f-string
formatting of a natural number. -/
def digitChar : Nat → Char
  | 0 => '0' | 1 => '1' | 2 => '2' | 3 => '3' | 4 => '4'
  | 5 => '5' | 6 => '6' | 7 => '7' | 8 => '8' | 9 => '9'
  | _ => '?'

/-- Fuel-driven decimal rendering (structural recursion so that concrete
instances reduce in the kernel). -/
def natToCharsAux : Nat → Nat → List Char
  | 0, _ => []
  | fuel + 1, n =>
    if n < 10 then [digitChar n]
    else natToCharsAux fuel (n / 10) ++ [digitChar (n % 10)]

/-- Decimal rendering of a natural number, as Python's f-string `f"{n}"`. -/
def natToChars (n : Nat) : List Char := natToCharsAux (n + 1) n

/-- A paragraph sub-unit of a provision (`{"id": ..., "text": ...}` in the
source; only the `text` field is ever read by the chunker). -/
structure Paragraph where
  id : Str
  text : Str
deriving DecidableEq, Repr

/-- Provision, the input record of the chunker (`src/parsing.py`). -/
structure Provision where
  id : Str
  type : Str
  number : Str
  title : Str
  text : Str
  chapter : Str := []
  chapter_title : Str := []
  paragraphs : List Paragraph := []
deriving DecidableEq, Repr

/-- The flat metadata record carried by every chunk. -/
structure ChunkMeta where
  provision_id : Str
  type : Str
  number : Str
  title : Str
  chapter : Str
  chapter_title : Str
  chunk_idx : Nat
deriving DecidableEq, Repr

/-- A chunk, the output record of the chunker. -/
structure Chunk where
  id : Str
  text : Str
  metadata : ChunkMeta
deriving DecidableEq, Repr

/-- The constant `MAX_TOKENS` from `src/chunking.py`. -/
def MAX_TOKENS : Nat := 800

/-- Translation of `_make_chunk` from `src/chunking.py`: build a chunk with metadata;
the id carries a `#idx` suffix exactly for `chunk_idx > 0`. -/
def _make_chunk (provision : Provision) (text : Str) (chunk_idx : Nat) : Chunk :=
  { id := if 0 < chunk_idx then provision.id ++ '#' :: natToChars chunk_idx else provision.id
    text := text
    metadata :=
      { provision_id := provision.id
        type := provision.type
        number := provision.number
        title := provision.title
        chapter := provision.chapter
        chapter_title := provision.chapter_title
        chunk_idx := chunk_idx } }

/-- Is the first character a whitespace character? -/
def headIsWS : Str → Bool
  | [] => false
  | c :: _ => isWS c

/-- One step (consuming one character, right to left) of the sentence
splitter.  `spans` is the split of the text to the right of the cursor. -/
def splitStep (c : Char) (spans : List Str) : List Str :=
  match spans with
  | [] => [[c]]
  | s :: ss =>
    if (c = '.' || c = ';') && headIsWS s then [c] :: lstrip s :: ss
    else (c :: s) :: ss

/-- Model of `re.split(r"(?<=[.;])\s+", text)` from `_split_by_sentences`:
the text is cut at every maximal whitespace run that immediately follows a
`.` or `;`, the run itself is discarded, and the `.`/`;` stays with the
span before it.  Implemented as a right fold so that each whitespace run
is attached to the span on its right until a `.`/`;` shows up directly on
its left, at which point the run is discarded and a new span starts. -/
def splitSentences (text : Str) : List Str := text.foldr splitStep [[]]

/-- The greedy packing loop shared by `_split_by_sentences` (units =
sentence spans, `sep = " "`) and the paragraph loop inside `_chunk_article`
(units = paragraph texts, `sep = "\n\n"`): grow an accumulator
`current_text`; when the candidate would exceed `MAX_TOKENS` and the
accumulator holds more than the bare header, flush it (stripped) as a
chunk and restart from `header + unit + sep`; after the loop, flush the
accumulator unless it strips down to the bare header. -/
def packLoop (tok : Str → Nat) (p : Provision) (header sep : Str) :
    List Str → Str → Nat → List Chunk
  | [], current_text, chunk_idx =>
    if strip current_text ≠ strip header then
      [_make_chunk p (strip current_text) chunk_idx]
    else []
  | unit :: rest, current_text, chunk_idx =>
    let candidate := current_text ++ unit ++ sep
    if MAX_TOKENS < tok candidate ∧ current_text ≠ header then
      _make_chunk p (strip current_text) chunk_idx ::
        packLoop tok p header sep rest (header ++ unit ++ sep) (chunk_idx + 1)
    else
      packLoop tok p header sep rest candidate chunk_idx

/-- Translation of `_split_by_sentences` from `src/chunking.py`. -/
def _split_by_sentences (tok : Str → Nat) (p : Provision) (header text : Str) : List Chunk :=
  packLoop tok p header [' '] (splitSentences text) header 0

/-- The header `f"{title}\n\n"` prepended by every chunking strategy. -/
def headerOf (p : Provision) : Str := p.title ++ ['\n', '\n']

/-- Translation of `_chunk_article` from `src/chunking.py`: single chunk if the whole
provision fits, else pack by paragraphs, else (no paragraph structure)
split by sentences. -/
def _chunk_article (tok : Str → Nat) (article : Provision) : List Chunk :=
  let header := headerOf article
  let full := header ++ article.text
  if tok full ≤ MAX_TOKENS then [_make_chunk article full 0]
  else if article.paragraphs = [] then
    _split_by_sentences tok article header article.text
  else
    packLoop tok article header ['\n', '\n'] (article.paragraphs.map (·.text)) header 0

/-- Translation of `_chunk_recital` from `src/chunking.py`. -/
def _chunk_recital (tok : Str → Nat) (recital : Provision) : List Chunk :=
  let header := headerOf recital
  let full := header ++ recital.text
  if tok full ≤ MAX_TOKENS then [_make_chunk recital full 0]
  else _split_by_sentences tok recital (headerOf recital) recital.text

/-- Translation of `_chunk_annex` from `src/chunking.py`. -/
def _chunk_annex (tok : Str → Nat) (annex : Provision) : List Chunk :=
  let header := headerOf annex
  let full := header ++ annex.text
  if tok full ≤ MAX_TOKENS then [_make_chunk annex full 0]
  else _split_by_sentences tok annex (headerOf annex) annex.text

/-- The per-provision dispatch (the body of the loop in `chunk_provisions`):
articles, recitals and annexes go to their strategy, anything else yields
no chunks. -/
def chunkOne (tok : Str → Nat) (p : Provision) : List Chunk :=
  if p.type = "article".toList then _chunk_article tok p
  else if p.type = "recital".toList then _chunk_recital tok p
  else if p.type = "annex".toList then _chunk_annex tok p
  else []

/-- Translation of `chunk_provisions` from `src/chunking.py`: chunk every provision in
input order and concatenate the results. -/
def chunk_provisions (tok : Str → Nat) : List Provision → List Chunk
  | [] => []
  | p :: rest => chunkOne tok p ++ chunk_provisions tok rest

/-- The text `joinSp sep [u₁, …, uₖ] = u₁ ++ sep ++ … ++ uₖ ++ sep`: the exact shape
the accumulator of `packLoop` takes after absorbing units `u₁ … uₖ`. -/
def joinSp (sep : Str) (g : List Str) : Str := (g.map (· ++ sep)).flatten

/-- Paragraph texts joined by a blank line: the documented data-model
invariant relating `Provision.text` to `Provision.paragraphs` (established
by the parser, consumed by the chunker). -/
def joinBlank : List Str → Str
  | [] => []
  | [t] => t
  | t :: ts => t ++ '\n' :: '\n' :: joinBlank ts

/-- The packing units a provision is decomposed into when it does not fit
in a single chunk: paragraph texts for an article with paragraph
structure, sentence spans of the full text otherwise. -/
def unitsOf (p : Provision) : List Str :=
  if p.type = "article".toList ∧ p.paragraphs ≠ [] then p.paragraphs.map (·.text)
  else splitSentences p.text

/-- The separator that goes with `unitsOf`. -/
def sepOf (p : Provision) : Str :=
  if p.type = "article".toList ∧ p.paragraphs ≠ [] then ['\n', '\n'] else [' ']

/-- The chunk id determined by a provision id and a chunk index. -/
def idFor (pid : Str) (k : Nat) : Str :=
  if 0 < k then pid ++ '#' :: natToChars k else pid

/-- The chunk list built from consecutive groups of units: group `gᵢ`
becomes the chunk `strip (header ++ joinSp sep gᵢ)` with index `idx + i`. -/
def buildChunks (p : Provision) (header sep : Str) : List (List Str) → Nat → List Chunk
  | [], _ => []
  | g :: gs, idx =>
    _make_chunk p (strip (header ++ joinSp sep g)) idx :: buildChunks p header sep gs (idx + 1)

/-- The three provision types handled by `chunk_provisions`. -/
def coreTypes : List Str := ["article".toList, "recital".toList, "annex".toList]

/-! Concrete token models and provisions used to instantiate the theorems
below on closed inputs.  Any `tok : Str → Nat` is a legitimate token
model; `tokLen` charges one token per character, `tok300` charges 300, so
that already a three-character text overflows the 800-token budget. -/

/-- Token model charging one token per character. -/
def tokLen : Str → Nat := fun s => s.length

/-- Token model charging 300 tokens per character (forces splits on tiny
inputs). -/
def tok300 : Str → Nat := fun s => 300 * s.length

/-- A recital whose text has three sentence spans. -/
def exRec : Provision :=
  { id := "r1".toList, type := "recital".toList, number := "1".toList,
    title := "T".toList, text := "a. b. c.".toList }

/-- A short recital (fits in one chunk under `tokLen`). -/
def exShort : Provision :=
  { id := "r2".toList, type := "recital".toList, number := "2".toList,
    title := "T".toList, text := "x".toList }

/-- An article with two paragraphs whose text is their blank-line join. -/
def exArtPar : Provision :=
  { id := "art_1".toList, type := "article".toList, number := "1".toList,
    title := "A".toList, text := "aa.\n\nbb.".toList,
    paragraphs := [⟨"p1".toList, "aa.".toList⟩, ⟨"p2".toList, "bb.".toList⟩] }

/-- A provision with a type outside the three handled ones. -/
def exOther : Provision :=
  { id := "c1".toList, type := "chapter".toList, number := "1".toList,
    title := "C".toList, text := "x.".toList }

/-- A recital whose text carries a trailing space. -/
def cexTrail : Provision :=
  { id := "r3".toList, type := "recital".toList, number := "3".toList,
    title := "T".toList, text := "x ".toList }

/-- A recital whose id collides with the `#1` sub-chunk id of `cexA`. -/
def cexA : Provision :=
  { id := "a".toList, type := "recital".toList, number := "4".toList,
    title := "T".toList, text := "a. b.".toList }

/-- A recital whose id is `a#1`. -/
def cexA1 : Provision :=
  { id := "a#1".toList, type := "recital".toList, number := "5".toList,
    title := "T".toList, text := "c.".toList }

/-- A recital whose title is a lone space and whose text is empty. -/
def cexWS : Provision :=
  { id := "r6".toList, type := "recital".toList, number := "6".toList,
    title := [' '], text := [] }

/-! Basic lemmas about whitespace stripping and non-whitespace content. -/

theorem content_append (a b : Str) : content (a ++ b) = content a ++ content b :=
  List.filter_append ..

theorem content_cons_ws {c : Char} (t : Str) (h : isWS c = true) :
    content (c :: t) = content t := by
  simp [content, List.filter_cons, h]

theorem content_cons_not_ws {c : Char} (t : Str) (h : isWS c = false) :
    content (c :: t) = c :: content t := by
  simp [content, List.filter_cons, h]

theorem content_dropWhile (s : Str) : content (s.dropWhile isWS) = content s := by
  induction s with
  | nil => rfl
  | cons c t ih =>
    rw [List.dropWhile_cons]
    by_cases h : isWS c
    · rw [if_pos h, ih, content_cons_ws t h]
    · rw [if_neg h]

theorem content_lstrip (s : Str) : content (lstrip s) = content s :=
  content_dropWhile s

theorem content_reverse (s : Str) : content s.reverse = (content s).reverse :=
  List.filter_reverse ..

theorem content_rstrip (s : Str) : content (rstrip s) = content s := by
  have h := content_dropWhile s.reverse
  rw [content_reverse] at h
  have h2 := congrArg List.reverse h
  rw [List.reverse_reverse] at h2
  calc content (rstrip s) = content ((s.reverse.dropWhile isWS).reverse) := rfl
    _ = (content (s.reverse.dropWhile isWS)).reverse := content_reverse _
    _ = content s := h2

theorem content_strip (s : Str) : content (strip s) = content s := by
  calc content (strip s) = content (lstrip s) := content_rstrip _
    _ = content s := content_lstrip s

theorem content_of_strip_eq {a b : Str} (h : strip a = strip b) : content a = content b := by
  rw [← content_strip a, ← content_strip b, h]

theorem lstrip_ne_nil_of_content {s : Str} (h : content s ≠ []) : lstrip s ≠ [] := by
  intro hnil
  exact h (by rw [← content_lstrip s, hnil]; rfl)

theorem strip_ne_nil_of_content {s : Str} (h : content s ≠ []) : strip s ≠ [] := by
  intro hnil
  exact h (by rw [← content_strip s, hnil]; rfl)

theorem dropWhile_head_false {p : Char → Bool} :
    ∀ {s : Str} {c : Char} {t : Str}, s.dropWhile p = c :: t → p c = false := by
  intro s
  induction s with
  | nil => intro c t h; simp at h
  | cons a s ih =>
    intro c t h
    rw [List.dropWhile_cons] at h
    by_cases ha : p a
    · exact ih (by simpa [ha] using h)
    · obtain ⟨rfl, -⟩ := by simpa [ha] using h
      simpa using ha

theorem lstrip_append {a : Str} (b : Str) (h : lstrip a ≠ []) :
    lstrip (a ++ b) = lstrip a ++ b := by
  show (a ++ b).dropWhile isWS = a.dropWhile isWS ++ b
  rw [List.dropWhile_append, if_neg (by simp only [List.isEmpty_iff]; exact h)]

theorem lstrip_append_nil {a : Str} (b : Str) (h : lstrip a = []) :
    lstrip (a ++ b) = lstrip b := by
  show (a ++ b).dropWhile isWS = b.dropWhile isWS
  rw [List.dropWhile_append, if_pos (by simp only [List.isEmpty_iff]; exact h)]

theorem rstrip_prefix_self (s : Str) : rstrip s <+: s := by
  have h : s.reverse.dropWhile isWS <:+ s.reverse := List.dropWhile_suffix _
  have h2 : (s.reverse.dropWhile isWS).reverse <+: s.reverse.reverse :=
    List.reverse_prefix.mpr (by simpa using h)
  rw [List.reverse_reverse] at h2
  exact h2

theorem dropWhile_idem (p : Char → Bool) (s : Str) :
    (s.dropWhile p).dropWhile p = s.dropWhile p := by
  rcases hd : s.dropWhile p with _ | ⟨c, t⟩
  · rfl
  · rw [List.dropWhile_cons, if_neg]
    simp [dropWhile_head_false hd]

theorem rstrip_idem (s : Str) : rstrip (rstrip s) = rstrip s := by
  show ((s.reverse.dropWhile isWS).reverse.reverse.dropWhile isWS).reverse = _
  rw [List.reverse_reverse, dropWhile_idem]
  rfl

theorem lstrip_rstrip_of_lstrip {s : Str} (h : lstrip s = s) :
    lstrip (rstrip s) = rstrip s := by
  rcases hr : rstrip s with _ | ⟨c, t⟩
  · rfl
  · have hpre : rstrip s <+: s := rstrip_prefix_self s
    rw [hr] at hpre
    obtain ⟨w, hw⟩ := hpre
    have hc : isWS c = false := by
      have : s.dropWhile isWS = c :: (t ++ w) := by
        rw [show s.dropWhile isWS = lstrip s from rfl, h, ← hw]
        exact List.cons_append ..
      exact dropWhile_head_false this
    show (c :: t).dropWhile isWS = c :: t
    rw [List.dropWhile_cons, if_neg (by simp [hc])]

theorem lstrip_idem (s : Str) : lstrip (lstrip s) = lstrip s :=
  dropWhile_idem isWS s

theorem strip_idem (s : Str) : strip (strip s) = strip s := by
  show rstrip (lstrip (rstrip (lstrip s))) = rstrip (lstrip s)
  rw [lstrip_rstrip_of_lstrip (lstrip_idem s), rstrip_idem]

theorem length_strip_le (s : Str) : (strip s).length ≤ s.length := by
  have h1 : (lstrip s).length ≤ s.length := (List.dropWhile_sublist _).length_le
  have h2 : (rstrip (lstrip s)).length ≤ (lstrip s).length := by
    show ((lstrip s).reverse.dropWhile isWS).reverse.length ≤ _
    rw [List.length_reverse]
    calc ((lstrip s).reverse.dropWhile isWS).length ≤ (lstrip s).reverse.length :=
          (List.dropWhile_sublist _).length_le
      _ = (lstrip s).length := List.length_reverse _
  exact le_trans h2 h1

theorem strip_append_of_content_ne {t : Str} (r : Str) (h : content t ≠ []) :
    strip t <+: strip (t ++ r) ∧ strip (t ++ r) ≠ [] := by
  have ht' : lstrip t ≠ [] := lstrip_ne_nil_of_content h
  have hstep : strip (t ++ r) = rstrip (lstrip t ++ r) := by
    show rstrip (lstrip (t ++ r)) = _
    rw [lstrip_append r ht']
  by_cases hd : r.reverse.dropWhile isWS = []
  · have : rstrip (lstrip t ++ r) = rstrip (lstrip t) := by
      show ((lstrip t ++ r).reverse.dropWhile isWS).reverse = _
      rw [List.reverse_append, List.dropWhile_append,
        if_pos (by simpa [List.isEmpty_iff] using hd)]
      rfl
    rw [hstep, this]
    exact ⟨List.prefix_refl _, strip_ne_nil_of_content h⟩
  · have : rstrip (lstrip t ++ r) = lstrip t ++ (r.reverse.dropWhile isWS).reverse := by
      show ((lstrip t ++ r).reverse.dropWhile isWS).reverse = _
      rw [List.reverse_append, List.dropWhile_append,
        if_neg (by simpa [List.isEmpty_iff] using hd)]
      rw [List.reverse_append, List.reverse_reverse]
    rw [hstep, this]
    constructor
    · exact (rstrip_prefix_self (lstrip t)).trans (List.prefix_append _ _)
    · intro hnil
      exact ht' (by simpa using List.append_eq_nil.mp hnil |>.1)

/-! Injectivity of the decimal rendering used in chunk ids. -/

/-- The value of a decimal digit character (inverse of `digitChar`). -/
def digitVal : Char → Nat
  | '0' => 0 | '1' => 1 | '2' => 2 | '3' => 3 | '4' => 4
  | '5' => 5 | '6' => 6 | '7' => 7 | '8' => 8 | '9' => 9
  | _ => 10

/-- The numeric value of a digit string. -/
def decVal (l : List Char) : Nat := l.foldl (fun a c => 10 * a + digitVal c) 0

theorem digitVal_digitChar {r : Nat} (h : r < 10) : digitVal (digitChar r) = r := by
  interval_cases r <;> rfl

theorem decVal_append_digit (l : List Char) (c : Char) :
    decVal (l ++ [c]) = 10 * decVal l + digitVal c := by
  show (l ++ [c]).foldl _ 0 = _
  rw [List.foldl_append]
  rfl

theorem decVal_natToCharsAux :
    ∀ fuel n, n < fuel → decVal (natToCharsAux fuel n) = n := by
  intro fuel
  induction fuel with
  | zero => intro n hn; omega
  | succ f ih =>
    intro n hn
    by_cases h : n < 10
    · show decVal (if n < 10 then [digitChar n] else _) = n
      rw [if_pos h]
      show 10 * 0 + digitVal (digitChar n) = n
      rw [digitVal_digitChar h]
      omega
    · show decVal (if n < 10 then _ else natToCharsAux f (n / 10) ++ [digitChar (n % 10)]) = n
      rw [if_neg h]
      have hdiv : n / 10 < n := Nat.div_lt_self (by omega) (by norm_num)
      rw [decVal_append_digit, ih (n / 10) (by omega),
        digitVal_digitChar (Nat.mod_lt n (by norm_num))]
      omega

theorem natToChars_inj {m n : Nat} (h : natToChars m = natToChars n) : m = n := by
  have hm := decVal_natToCharsAux (m + 1) m (by omega)
  have hn := decVal_natToCharsAux (n + 1) n (by omega)
  rw [show natToCharsAux (m + 1) m = natToChars m from rfl] at hm
  rw [show natToCharsAux (n + 1) n = natToChars n from rfl] at hn
  rw [← hm, ← hn, h]

theorem hash_cancel :
    ∀ (a b s t : Str), '#' ∉ a → '#' ∉ b → a ++ '#' :: s = b ++ '#' :: t →
      a = b ∧ s = t := by
  intro a
  induction a with
  | nil =>
    intro b s t _ hb h
    cases b with
    | nil => simpa using h
    | cons d b' =>
      rw [List.nil_append, List.cons_append] at h
      obtain ⟨hd, -⟩ := List.cons.inj h
      exact absurd (by rw [hd]; exact List.mem_cons_self _ _) hb
  | cons c a' ih =>
    intro b s t ha hb h
    cases b with
    | nil =>
      rw [List.nil_append, List.cons_append] at h
      obtain ⟨hd, -⟩ := List.cons.inj h
      exact absurd (by rw [← hd]; exact List.mem_cons_self _ _) ha
    | cons d b' =>
      rw [List.cons_append, List.cons_append] at h
      obtain ⟨hd, htl⟩ := List.cons.inj h
      have ha' : '#' ∉ a' := fun hx => ha (List.mem_cons_of_mem _ hx)
      have hb' : '#' ∉ b' := fun hx => hb (List.mem_cons_of_mem _ hx)
      obtain ⟨h1, h2⟩ := ih b' s t ha' hb' htl
      exact ⟨by rw [hd, h1], h2⟩

theorem idFor_inj {a b : Str} {k j : Nat} (ha : '#' ∉ a) (hb : '#' ∉ b)
    (h : idFor a k = idFor b j) : a = b ∧ k = j := by
  unfold idFor at h
  by_cases hk : 0 < k <;> by_cases hj : 0 < j
  · rw [if_pos hk, if_pos hj] at h
    obtain ⟨h1, h2⟩ := hash_cancel a b _ _ ha hb h
    exact ⟨h1, natToChars_inj h2⟩
  · rw [if_pos hk, if_neg hj] at h
    exact absurd (by rw [← h]; simp) hb
  · rw [if_neg hk, if_pos hj] at h
    exact absurd (by rw [h]; simp) ha
  · rw [if_neg hk, if_neg hj] at h
    exact ⟨h, by omega⟩

/-! Lemmas about `joinSp`, `joinBlank` and the sentence splitter. -/

theorem joinSp_nil (sep : Str) : joinSp sep [] = [] := rfl

theorem joinSp_cons (sep u : Str) (g : List Str) :
    joinSp sep (u :: g) = (u ++ sep) ++ joinSp sep g := by
  simp [joinSp]

theorem joinSp_snoc (sep u : Str) (g : List Str) :
    joinSp sep (g ++ [u]) = joinSp sep g ++ (u ++ sep) := by
  simp [joinSp]

theorem joinSp_single (sep u : Str) : joinSp sep [u] = u ++ sep := by
  simp [joinSp]

theorem joinSp_eq_nil {sep : Str} (hsep : sep ≠ []) {g : List Str} :
    joinSp sep g = [] ↔ g = [] := by
  cases g with
  | nil => simp [joinSp]
  | cons u g' =>
    rw [joinSp_cons]
    simp [hsep]

theorem content_joinSp {sep : Str} (hsep : content sep = []) (g : List Str) :
    content (joinSp sep g) = (g.map content).flatten := by
  induction g with
  | nil => rfl
  | cons u g' ih =>
    rw [joinSp_cons, content_append, content_append, hsep, List.append_nil,
      List.map_cons, List.flatten_cons, ih]

theorem content_joinBlank (ts : List Str) :
    content (joinBlank ts) = (ts.map content).flatten := by
  induction ts with
  | nil => rfl
  | cons t ts' ih =>
    cases ts' with
    | nil => simp [joinBlank, content]
    | cons u us =>
      show content (t ++ '\n' :: '\n' :: joinBlank (u :: us)) = _
      rw [show ('\n' :: '\n' :: joinBlank (u :: us) : Str) =
            ['\n', '\n'] ++ joinBlank (u :: us) from rfl]
      rw [content_append, content_append, ih]
      simp [content, isWS]

theorem content_flatten_splitStep (c : Char) (st : List Str) :
    content (splitStep c st).flatten = content (c :: st.flatten) := by
  match st with
  | [] => simp [splitStep]
  | s :: ss =>
    show content (if (c = '.' || c = ';') && headIsWS s then
        ([c] :: lstrip s :: ss : List Str) else (c :: s) :: ss).flatten = _
    by_cases h : ((c = '.' || c = ';') && headIsWS s : Bool)
    · rw [if_pos h]
      have hc : isWS c = false := by
        have := (Bool.and_eq_true _ _).mp h |>.1
        rcases Bool.or_eq_true _ _ |>.mp this with h1 | h1
        · rw [show c = '.' from by simpa using h1]; rfl
        · rw [show c = ';' from by simpa using h1]; rfl
      rw [List.flatten_cons, List.flatten_cons, List.flatten_cons]
      rw [show ([c] ++ (lstrip s ++ ss.flatten) : Str) = c :: (lstrip s ++ ss.flatten) from rfl]
      rw [content_cons_not_ws _ hc, content_cons_not_ws _ hc, content_append,
        content_lstrip, content_append]
    · rw [if_neg h]
      rw [List.flatten_cons, List.flatten_cons]
      rfl

theorem content_flatten_splitSentences (t : Str) :
    content (splitSentences t).flatten = content t := by
  induction t with
  | nil => rfl
  | cons c t' ih =>
    show content (splitStep c (splitSentences t')).flatten = _
    rw [content_flatten_splitStep]
    by_cases hc : isWS c
    · rw [content_cons_ws _ hc, content_cons_ws _ hc, ih]
    · rw [content_cons_not_ws _ (by simpa using hc),
        content_cons_not_ws _ (by simpa using hc), ih]

/-! Structure of `_make_chunk`, `buildChunks` and the packing loop. -/

@[simp] theorem make_chunk_id (p : Provision) (t : Str) (k : Nat) :
    (_make_chunk p t k).id = idFor p.id k := rfl

@[simp] theorem make_chunk_text (p : Provision) (t : Str) (k : Nat) :
    (_make_chunk p t k).text = t := rfl

@[simp] theorem make_chunk_idx (p : Provision) (t : Str) (k : Nat) :
    (_make_chunk p t k).metadata.chunk_idx = k := rfl

@[simp] theorem make_chunk_pid (p : Provision) (t : Str) (k : Nat) :
    (_make_chunk p t k).metadata.provision_id = p.id := rfl

theorem buildChunks_length (p : Provision) (header sep : Str) :
    ∀ (gs : List (List Str)) (idx : Nat),
      (buildChunks p header sep gs idx).length = gs.length := by
  intro gs
  induction gs with
  | nil => intro idx; rfl
  | cons g gs' ih =>
    intro idx
    show (_make_chunk _ _ _ :: buildChunks p header sep gs' (idx + 1)).length = _
    rw [List.length_cons, ih, List.length_cons]

theorem buildChunks_texts (p : Provision) (header sep : Str) :
    ∀ (gs : List (List Str)) (idx : Nat),
      (buildChunks p header sep gs idx).map (·.text) =
        gs.map (fun g => strip (header ++ joinSp sep g)) := by
  intro gs
  induction gs with
  | nil => intro idx; rfl
  | cons g gs' ih =>
    intro idx
    show (_make_chunk _ _ _ :: buildChunks p header sep gs' (idx + 1)).map (·.text) = _
    rw [List.map_cons, ih, make_chunk_text, List.map_cons]

theorem buildChunks_idxs (p : Provision) (header sep : Str) :
    ∀ (gs : List (List Str)) (idx : Nat),
      (buildChunks p header sep gs idx).map (·.metadata.chunk_idx) =
        List.range' idx gs.length := by
  intro gs
  induction gs with
  | nil => intro idx; rfl
  | cons g gs' ih =>
    intro idx
    show (_make_chunk _ _ _ :: buildChunks p header sep gs' (idx + 1)).map
        (·.metadata.chunk_idx) = _
    rw [List.map_cons, ih, make_chunk_idx, List.length_cons, List.range'_succ]

theorem mem_buildChunks {p : Provision} {header sep : Str} :
    ∀ {gs : List (List Str)} {idx : Nat} {c : Chunk},
      c ∈ buildChunks p header sep gs idx →
      ∃ g ∈ gs, ∃ j, c = _make_chunk p (strip (header ++ joinSp sep g)) j := by
  intro gs
  induction gs with
  | nil => intro idx c hc; simp [buildChunks] at hc
  | cons g gs' ih =>
    intro idx c hc
    rcases List.mem_cons.mp hc with h | h
    · exact ⟨g, List.mem_cons_self _ _, idx, h⟩
    · obtain ⟨g', hg', j, hj⟩ := ih h
      exact ⟨g', List.mem_cons_of_mem _ hg', j, hj⟩

theorem buildChunks_eq_nil {p : Provision} {header sep : Str}
    {gs : List (List Str)} {idx : Nat} :
    buildChunks p header sep gs idx = [] ↔ gs = [] := by
  cases gs with
  | nil => simp [buildChunks]
  | cons g gs' => simp [buildChunks]

theorem header_append_joinSp_eq {header sep : Str} (hsep : sep ≠ []) (g : List Str) :
    header ++ joinSp sep g = header ↔ g = [] := by
  rw [List.append_right_eq_self, joinSp_eq_nil hsep]

/-- Partition lemma for the packing loop: starting from the accumulator
`header ++ joinSp sep g`, the loop partitions `g ++ l` into consecutive
nonempty groups, emits one stripped chunk per group (with consecutive
indices, via `buildChunks`), and drops at most a trailing remainder that
strips down to the bare header. -/
theorem packLoop_spec (tok : Str → Nat) (p : Provision) (header sep : Str) :
    ∀ (l g : List Str) (idx : Nat),
      ∃ gs rest,
        g ++ l = gs.flatten ++ rest ∧
        (∀ h ∈ gs, h ≠ []) ∧
        strip (header ++ joinSp sep rest) = strip header ∧
        packLoop tok p header sep l (header ++ joinSp sep g) idx =
          buildChunks p header sep gs idx := by
  intro l
  induction l with
  | nil =>
    intro g idx
    by_cases hne : strip (header ++ joinSp sep g) ≠ strip header
    · refine ⟨[g], [], by simp, ?_, ?_, ?_⟩
      · intro h hh
        rw [List.mem_singleton] at hh
        subst hh
        intro hnil
        subst hnil
        exact hne (by rw [joinSp_nil, List.append_nil])
      · rw [joinSp_nil, List.append_nil]
      · show (if strip (header ++ joinSp sep g) ≠ strip header then _ else _) = _
        rw [if_pos hne]
        rfl
    · refine ⟨[], g, by simp, by simp, not_not.mp hne, ?_⟩
      show (if strip (header ++ joinSp sep g) ≠ strip header then _ else _) = _
      rw [if_neg hne]
      rfl
  | cons u rest ih =>
    intro g idx
    have hacc : (header ++ joinSp sep g) ++ u ++ sep = header ++ joinSp sep (g ++ [u]) := by
      rw [joinSp_snoc]
      simp [List.append_assoc]
    by_cases hc : MAX_TOKENS < tok ((header ++ joinSp sep g) ++ u ++ sep) ∧
        (header ++ joinSp sep g) ≠ header
    · have hg : g ≠ [] := fun hnil =>
        hc.2 (by rw [hnil, joinSp_nil, List.append_nil])
      obtain ⟨gs', rest', heq, hne, hrest, hout⟩ := ih [u] (idx + 1)
      refine ⟨g :: gs', rest', ?_, ?_, hrest, ?_⟩
      · rw [List.flatten_cons, List.append_assoc, ← heq]
        rfl
      · intro h hh
        rcases List.mem_cons.mp hh with h1 | h1
        · rw [h1]; exact hg
        · exact hne h h1
      · show (if MAX_TOKENS < tok ((header ++ joinSp sep g) ++ u ++ sep) ∧
            (header ++ joinSp sep g) ≠ header then _ else _) = _
        rw [if_pos hc]
        show _make_chunk p (strip (header ++ joinSp sep g)) idx ::
            packLoop tok p header sep rest (header ++ u ++ sep) (idx + 1) = _
        rw [show header ++ u ++ sep = header ++ joinSp sep [u] by
          rw [joinSp_single]; simp [List.append_assoc]]
        rw [hout]
        rfl
    · obtain ⟨gs, rest', heq, hne, hrest, hout⟩ := ih (g ++ [u]) idx
      refine ⟨gs, rest', ?_, hne, hrest, ?_⟩
      · rw [← heq]
        simp
      · show (if MAX_TOKENS < tok ((header ++ joinSp sep g) ++ u ++ sep) ∧
            (header ++ joinSp sep g) ≠ header then _ else _) = _
        rw [if_neg hc, hacc]
        exact hout

/-- Soft-budget invariant of the packing loop: every emitted chunk either
fits in `MAX_TOKENS`, or is the strip of `header + u + sep` for a single
unit `u` (satisfying `S`) that together with the header exceeds
`MAX_TOKENS`. -/
theorem packLoop_budget (tok : Str → Nat) (p : Provision) (header sep : Str)
    (htok : ∀ s, tok (strip s) ≤ tok s) (S : Str → Prop) :
    ∀ (l : List Str) (acc : Str) (idx : Nat),
      (∀ u ∈ l, S u) →
      (acc = header ∨ tok acc ≤ MAX_TOKENS ∨ ∃ u, S u ∧ acc = header ++ u ++ sep) →
      ∀ c ∈ packLoop tok p header sep l acc idx,
        tok c.text ≤ MAX_TOKENS ∨
          ∃ u, S u ∧ c.text = strip (header ++ u ++ sep) ∧
            MAX_TOKENS < tok (header ++ u ++ sep) := by
  intro l
  induction l with
  | nil =>
    intro acc idx _ hacc c hc
    rw [show packLoop tok p header sep [] acc idx =
        if strip acc ≠ strip header then [_make_chunk p (strip acc) idx] else []
      from rfl] at hc
    by_cases hne : strip acc ≠ strip header
    · rw [if_pos hne, List.mem_singleton] at hc
      subst hc
      rw [make_chunk_text]
      rcases hacc with h | h | ⟨u, hu, h⟩
      · exact absurd (by rw [h]) hne
      · exact Or.inl (le_trans (htok acc) h)
      · by_cases hb : tok (header ++ u ++ sep) ≤ MAX_TOKENS
        · exact Or.inl (by rw [h]; exact le_trans (htok _) hb)
        · exact Or.inr ⟨u, hu, by rw [h], by omega⟩
    · rw [if_neg hne] at hc
      simp at hc
  | cons u rest ih =>
    intro acc idx hl hacc c hc
    rw [show packLoop tok p header sep (u :: rest) acc idx =
        if MAX_TOKENS < tok (acc ++ u ++ sep) ∧ acc ≠ header then
          _make_chunk p (strip acc) idx ::
            packLoop tok p header sep rest (header ++ u ++ sep) (idx + 1)
        else packLoop tok p header sep rest (acc ++ u ++ sep) idx
      from rfl] at hc
    have hl' : ∀ v ∈ rest, S v := fun v hv => hl v (List.mem_cons_of_mem _ hv)
    have hSu : S u := hl u (List.mem_cons_self _ _)
    by_cases hcond : MAX_TOKENS < tok (acc ++ u ++ sep) ∧ acc ≠ header
    · rw [if_pos hcond, List.mem_cons] at hc
      rcases hc with h | h
      · subst h
        rw [make_chunk_text]
        rcases hacc with h | h | ⟨v, hv, h⟩
        · exact absurd h hcond.2
        · exact Or.inl (le_trans (htok acc) h)
        · by_cases hb : tok (header ++ v ++ sep) ≤ MAX_TOKENS
          · exact Or.inl (by rw [h]; exact le_trans (htok _) hb)
          · exact Or.inr ⟨v, hv, by rw [h], by omega⟩
      · exact ih (header ++ u ++ sep) (idx + 1) hl' (Or.inr (Or.inr ⟨u, hSu, rfl⟩)) c h
    · rw [if_neg hcond] at hc
      have : tok (acc ++ u ++ sep) ≤ MAX_TOKENS ∨ acc = header := by
        by_cases h1 : acc = header
        · exact Or.inr h1
        · have h2 : ¬ MAX_TOKENS < tok (acc ++ u ++ sep) := fun hlt => hcond ⟨hlt, h1⟩
          exact Or.inl (by omega)
      rcases this with h1 | h1
      · exact ih (acc ++ u ++ sep) idx hl' (Or.inr (Or.inl h1)) c hc
      · subst h1
        exact ih (acc ++ u ++ sep) idx hl' (Or.inr (Or.inr ⟨u, hSu, rfl⟩)) c hc

/-- Specialisation of `packLoop_spec` to the initial accumulator (the bare
header), the form in which the source calls the loop. -/
theorem packLoop_spec0 (tok : Str → Nat) (p : Provision) (header sep : Str)
    (l : List Str) (idx : Nat) :
    ∃ gs rest,
      l = gs.flatten ++ rest ∧
      (∀ h ∈ gs, h ≠ []) ∧
      strip (header ++ joinSp sep rest) = strip header ∧
      packLoop tok p header sep l header idx = buildChunks p header sep gs idx := by
  obtain ⟨gs, rest, h1, h2, h3, h4⟩ := packLoop_spec tok p header sep l [] idx
  refine ⟨gs, rest, by simpa using h1, h2, h3, ?_⟩
  rw [joinSp_nil, List.append_nil] at h4
  exact h4

/-! Lemmas about the per-provision dispatch `chunkOne`. -/

theorem chunkOne_eq (tok : Str → Nat) (p : Provision) (h : p.type ∈ coreTypes) :
    (tok (headerOf p ++ p.text) ≤ MAX_TOKENS ∧
      chunkOne tok p = [_make_chunk p (headerOf p ++ p.text) 0]) ∨
    (MAX_TOKENS < tok (headerOf p ++ p.text) ∧
      chunkOne tok p =
        packLoop tok p (headerOf p) (sepOf p) (unitsOf p) (headerOf p) 0) := by
  have h3 : p.type = "article".toList ∨ p.type = "recital".toList ∨
      p.type = "annex".toList := by simpa [coreTypes] using h
  rcases h3 with ht | ht | ht
  · by_cases hfit : tok (headerOf p ++ p.text) ≤ MAX_TOKENS
    · refine Or.inl ⟨hfit, ?_⟩
      show (if p.type = "article".toList then _chunk_article tok p else _) = _
      rw [if_pos ht]
      show (if tok (headerOf p ++ p.text) ≤ MAX_TOKENS then _ else _) = _
      rw [if_pos hfit]
    · refine Or.inr ⟨by omega, ?_⟩
      show (if p.type = "article".toList then _chunk_article tok p else _) = _
      rw [if_pos ht]
      show (if tok (headerOf p ++ p.text) ≤ MAX_TOKENS then _
          else if p.paragraphs = [] then
            _split_by_sentences tok p (headerOf p) p.text
          else packLoop tok p (headerOf p) ['\n', '\n']
            (p.paragraphs.map (·.text)) (headerOf p) 0) = _
      rw [if_neg hfit]
      by_cases hp : p.paragraphs = []
      · rw [if_pos hp,
          show unitsOf p = splitSentences p.text from by simp [unitsOf, hp],
          show sepOf p = [' '] from by simp [sepOf, hp]]
        rfl
      · rw [if_neg hp,
          show unitsOf p = p.paragraphs.map (·.text) from by simp [unitsOf, ht, hp],
          show sepOf p = ['\n', '\n'] from by simp [sepOf, ht, hp]]
  · have hna : ¬ p.type = "article".toList := by rw [ht]; decide
    by_cases hfit : tok (headerOf p ++ p.text) ≤ MAX_TOKENS
    · refine Or.inl ⟨hfit, ?_⟩
      show (if p.type = "article".toList then _
          else if p.type = "recital".toList then _chunk_recital tok p else _) = _
      rw [if_neg hna, if_pos ht]
      show (if tok (headerOf p ++ p.text) ≤ MAX_TOKENS then _ else _) = _
      rw [if_pos hfit]
    · refine Or.inr ⟨by omega, ?_⟩
      show (if p.type = "article".toList then _
          else if p.type = "recital".toList then _chunk_recital tok p else _) = _
      rw [if_neg hna, if_pos ht]
      show (if tok (headerOf p ++ p.text) ≤ MAX_TOKENS then _
          else _split_by_sentences tok p (headerOf p) p.text) = _
      rw [if_neg hfit,
        show unitsOf p = splitSentences p.text from by simp [unitsOf, ht],
        show sepOf p = [' '] from by simp [sepOf, ht]]
      rfl
  · have hna : ¬ p.type = "article".toList := by rw [ht]; decide
    have hnr : ¬ p.type = "recital".toList := by rw [ht]; decide
    by_cases hfit : tok (headerOf p ++ p.text) ≤ MAX_TOKENS
    · refine Or.inl ⟨hfit, ?_⟩
      show (if p.type = "article".toList then _
          else if p.type = "recital".toList then _
          else if p.type = "annex".toList then _chunk_annex tok p else _) = _
      rw [if_neg hna, if_neg hnr, if_pos ht]
      show (if tok (headerOf p ++ p.text) ≤ MAX_TOKENS then _ else _) = _
      rw [if_pos hfit]
    · refine Or.inr ⟨by omega, ?_⟩
      show (if p.type = "article".toList then _
          else if p.type = "recital".toList then _
          else if p.type = "annex".toList then _chunk_annex tok p else _) = _
      rw [if_neg hna, if_neg hnr, if_pos ht]
      show (if tok (headerOf p ++ p.text) ≤ MAX_TOKENS then _
          else _split_by_sentences tok p (headerOf p) p.text) = _
      rw [if_neg hfit,
        show unitsOf p = splitSentences p.text from by simp [unitsOf, ht],
        show sepOf p = [' '] from by simp [sepOf, ht]]
      rfl

theorem chunkOne_other (tok : Str → Nat) (p : Provision) (h : p.type ∉ coreTypes) :
    chunkOne tok p = [] := by
  have h1 : ¬ p.type = "article".toList := fun hh => h (by simp [coreTypes, hh])
  have h2 : ¬ p.type = "recital".toList := fun hh => h (by simp [coreTypes, hh])
  have h3 : ¬ p.type = "annex".toList := fun hh => h (by simp [coreTypes, hh])
  show (if p.type = "article".toList then _
      else if p.type = "recital".toList then _
      else if p.type = "annex".toList then _ else []) = _
  rw [if_neg h1, if_neg h2, if_neg h3]

theorem chunk_provisions_eq_flatten (tok : Str → Nat) :
    ∀ ps : List Provision,
      chunk_provisions tok ps = (ps.map (chunkOne tok)).flatten := by
  intro ps
  induction ps with
  | nil => rfl
  | cons p rest ih =>
    show chunkOne tok p ++ chunk_provisions tok rest = _
    rw [ih, List.map_cons, List.flatten_cons]

theorem chunkOne_idxs (tok : Str → Nat) (p : Provision) :
    (chunkOne tok p).map (·.metadata.chunk_idx) =
      List.range (chunkOne tok p).length := by
  by_cases h : p.type ∈ coreTypes
  · rcases chunkOne_eq tok p h with ⟨-, he⟩ | ⟨-, he⟩
    · rw [he]; rfl
    · rw [he]
      obtain ⟨gs, rest, -, -, -, hout⟩ :=
        packLoop_spec0 tok p (headerOf p) (sepOf p) (unitsOf p) 0
      rw [hout, buildChunks_idxs, buildChunks_length, List.range_eq_range']
  · rw [chunkOne_other tok p h]; rfl

/-- Every chunk of a handled provision is either the single whole-provision
chunk or one of the stripped group chunks of the packing loop. -/
theorem mem_chunkOne (tok : Str → Nat) (p : Provision) (h : p.type ∈ coreTypes)
    {c : Chunk} (hc : c ∈ chunkOne tok p) :
    (tok (headerOf p ++ p.text) ≤ MAX_TOKENS ∧
      c = _make_chunk p (headerOf p ++ p.text) 0) ∨
    ∃ g, g ≠ [] ∧ ∃ j, c = _make_chunk p (strip (headerOf p ++ joinSp (sepOf p) g)) j := by
  rcases chunkOne_eq tok p h with ⟨hfit, he⟩ | ⟨-, he⟩
  · rw [he, List.mem_singleton] at hc
    exact Or.inl ⟨hfit, hc⟩
  · rw [he] at hc
    obtain ⟨gs, rest, -, hne, -, hout⟩ :=
      packLoop_spec0 tok p (headerOf p) (sepOf p) (unitsOf p) 0
    rw [hout] at hc
    obtain ⟨g, hg, j, hj⟩ := mem_buildChunks hc
    exact Or.inr ⟨g, hne g hg, j, hj⟩

/-! The claims. -/

/-- C9: the annex chunking strategy is extensionally equal to the recital
chunking strategy — for every provision and every token model, the two
produce identical chunk lists (both are whole-then-sentence). -/
theorem c9_annex_eq_recital :
    ∀ (tok : Str → Nat) (p : Provision), _chunk_annex tok p = _chunk_recital tok p :=
  fun _ _ => rfl

/-- C8: a provision whose type is not article, recital or annex produces
zero chunks, and removing it from the input list leaves the chunks of the
other provisions unchanged. -/
theorem c8_skip_other_types (tok : Str → Nat) (p : Provision)
    (h : p.type ∉ coreTypes) :
    chunk_provisions tok [p] = [] ∧
    ∀ xs ys : List Provision,
      chunk_provisions tok (xs ++ p :: ys) = chunk_provisions tok (xs ++ ys) := by
  have h0 : chunkOne tok p = [] := chunkOne_other tok p h
  constructor
  · show chunkOne tok p ++ chunk_provisions tok [] = []
    rw [h0]
    rfl
  · intro xs ys
    rw [chunk_provisions_eq_flatten, chunk_provisions_eq_flatten,
      List.map_append, List.map_append, List.map_cons, h0,
      List.flatten_append, List.flatten_append, List.flatten_cons,
      List.nil_append]

/-- C8 witness: a `chapter`-typed provision is skipped and does not disturb
its neighbours. -/
theorem c8_witness :
    exOther.type ∉ coreTypes ∧
    chunk_provisions tokLen [exOther] = [] ∧
    chunk_provisions tokLen ([exRec] ++ exOther :: [exShort]) =
      chunk_provisions tokLen ([exRec] ++ [exShort]) :=
  ⟨by decide, (c8_skip_other_types tokLen exOther (by decide)).1,
    (c8_skip_other_types tokLen exOther (by decide)).2 [exRec] [exShort]⟩

/-- C4: the output of `chunk_provisions` is the concatenation, in input
order, of each provision's chunk list (hence all chunks of one provision
are contiguous), and within one provision the metadata `chunk_idx` values
are exactly `0, 1, 2, …` in order (strictly increasing from 0). -/
theorem c4_order (tok : Str → Nat) (ps : List Provision) :
    chunk_provisions tok ps = (ps.map (chunkOne tok)).flatten ∧
    ∀ p ∈ ps, (chunkOne tok p).map (·.metadata.chunk_idx) =
      List.range (chunkOne tok p).length :=
  ⟨chunk_provisions_eq_flatten tok ps, fun p _ => chunkOne_idxs tok p⟩

/-- C4 witness: instantiation on a two-provision list, with the chunk-index
part instantiated at the first provision. -/
theorem c4_witness :
    chunk_provisions tok300 [exRec, exShort] =
      ([exRec, exShort].map (chunkOne tok300)).flatten ∧
    (chunkOne tok300 exRec).map (·.metadata.chunk_idx) =
      List.range (chunkOne tok300 exRec).length :=
  ⟨(c4_order tok300 [exRec, exShort]).1,
    (c4_order tok300 [exRec, exShort]).2 exRec (List.mem_cons_self _ _)⟩

/-- C2 counterexample: `cexTrail` is a short recital whose text ends in a
space; its single chunk's text is the raw `header + text`, which differs
from the trimmed concatenation demanded by the claim. -/
theorem c2_counterexample :
    cexTrail.type ∈ coreTypes ∧
    tokLen (headerOf cexTrail ++ cexTrail.text) ≤ MAX_TOKENS ∧
    (chunkOne tokLen cexTrail).map (·.text) ≠
      [strip (headerOf cexTrail ++ cexTrail.text)] := by
  decide

/-- C2 (amended): a provision of a handled type whose `header + text` fits
in `MAX_TOKENS` yields exactly one chunk, whose id is the bare provision
id (no `#0` suffix) and whose text is the raw concatenation
`header + text` (the code does not trim it). -/
theorem c2_single_chunk (tok : Str → Nat) (p : Provision) (h : p.type ∈ coreTypes)
    (hfit : tok (headerOf p ++ p.text) ≤ MAX_TOKENS) :
    (chunkOne tok p).map (fun c => (c.id, c.text)) =
      [(p.id, headerOf p ++ p.text)] := by
  rcases chunkOne_eq tok p h with ⟨-, he⟩ | ⟨hbig, -⟩
  · rw [he]
    rfl
  · omega

/-- C2 witness: `exShort` fits in a single chunk with bare id and untrimmed
text. -/
theorem c2_witness :
    exShort.type ∈ coreTypes ∧
    tokLen (headerOf exShort ++ exShort.text) ≤ MAX_TOKENS ∧
    (chunkOne tokLen exShort).map (fun c => (c.id, c.text)) =
      [(exShort.id, headerOf exShort ++ exShort.text)] :=
  ⟨by decide, by decide, c2_single_chunk tokLen exShort (by decide) (by decide)⟩

/-- C1: when a provision of a handled type decomposes into more than one
chunk, every emitted chunk either has token count at most `MAX_TOKENS`, or
is forced by a single oversized unit of the decomposition (a sentence span
or a paragraph): its text is exactly the stripped `header + unit + sep`
for a unit whose token count together with the header exceeds
`MAX_TOKENS`.  The token model is assumed not to charge more for a
stripped text than for the text itself. -/
theorem c1_soft_budget (tok : Str → Nat) (htok : ∀ s, tok (strip s) ≤ tok s)
    (p : Provision) (h : p.type ∈ coreTypes)
    (hmulti : 1 < (chunkOne tok p).length) :
    ∀ c ∈ chunkOne tok p,
      tok c.text ≤ MAX_TOKENS ∨
      ∃ u ∈ unitsOf p, c.text = strip (headerOf p ++ u ++ sepOf p) ∧
        MAX_TOKENS < tok (headerOf p ++ u ++ sepOf p) := by
  intro c hc
  rcases chunkOne_eq tok p h with ⟨hfit, he⟩ | ⟨hbig, he⟩
  · rw [he, List.mem_singleton] at hc
    subst hc
    exact Or.inl hfit
  · rw [he] at hc
    have hres := packLoop_budget tok p (headerOf p) (sepOf p) htok (· ∈ unitsOf p)
      (unitsOf p) (headerOf p) 0 (fun u hu => hu) (Or.inl rfl) c hc
    rcases hres with h1 | ⟨u, hu, h2, h3⟩
    · exact Or.inl h1
    · exact Or.inr ⟨u, hu, h2, h3⟩

/-- C1 witness: under `tok300` the recital `exRec` splits into three
chunks, each satisfying the soft-budget disjunction. -/
theorem c1_witness :
    (∀ s, tok300 (strip s) ≤ tok300 s) ∧
    exRec.type ∈ coreTypes ∧
    1 < (chunkOne tok300 exRec).length ∧
    ∀ c ∈ chunkOne tok300 exRec,
      tok300 c.text ≤ MAX_TOKENS ∨
      ∃ u ∈ unitsOf exRec, c.text = strip (headerOf exRec ++ u ++ sepOf exRec) ∧
        MAX_TOKENS < tok300 (headerOf exRec ++ u ++ sepOf exRec) :=
  have htok : ∀ s, tok300 (strip s) ≤ tok300 s := fun s => by
    have hlen := length_strip_le s
    show 300 * (strip s).length ≤ 300 * s.length
    omega
  ⟨htok, by decide, by decide,
    c1_soft_budget tok300 htok exRec (by decide) (by decide)⟩

/-- C5: sentence-based splitting never divides a span across chunks: the
span list is partitioned into consecutive nonempty groups, each chunk's
text is the stripped `header` plus the space-joined spans of its group (so
every span lands whole inside exactly one chunk), and only a trailing
remainder that strips down to the bare header is dropped.  In particular a
text that is a single unsplittable span yields exactly one chunk holding
the whole span. -/
theorem c5_spans_not_divided (tok : Str → Nat) (p : Provision) (header text : Str) :
    (∃ (gs : List (List Str)) (rest : List Str),
      gs.flatten ++ rest = splitSentences text ∧
      (∀ g ∈ gs, g ≠ []) ∧
      strip (header ++ joinSp [' '] rest) = strip header ∧
      (_split_by_sentences tok p header text).map (·.text) =
        gs.map (fun g => strip (header ++ joinSp [' '] g))) ∧
    ∀ s, splitSentences text = [s] →
      strip (header ++ joinSp [' '] [s]) ≠ strip header →
      (_split_by_sentences tok p header text).map (·.text) =
        [strip (header ++ joinSp [' '] [s])] := by
  obtain ⟨gs, rest, heq, hne, hrest, hout⟩ :=
    packLoop_spec0 tok p header [' '] (splitSentences text) 0
  have hmap : (_split_by_sentences tok p header text).map (·.text) =
      gs.map (fun g => strip (header ++ joinSp [' '] g)) := by
    rw [show _split_by_sentences tok p header text =
        packLoop tok p header [' '] (splitSentences text) header 0 from rfl,
      hout, buildChunks_texts]
  refine ⟨⟨gs, rest, heq.symm, hne, hrest, hmap⟩, ?_⟩
  intro s hs hne1
  rw [hs] at heq
  cases gs with
  | nil =>
    rw [List.flatten_nil, List.nil_append] at heq
    rw [← heq] at hrest
    exact absurd hrest hne1
  | cons g gs' =>
    rcases g with - | ⟨x, g'⟩
    · exact absurd rfl (hne [] (List.mem_cons_self _ _))
    · rw [List.flatten_cons, List.cons_append, List.cons_append] at heq
      obtain ⟨hx, hrest2⟩ := List.cons.inj heq
      obtain ⟨hgfl, hr⟩ := List.append_eq_nil.mp hrest2.symm
      obtain ⟨hg', hfl⟩ := List.append_eq_nil.mp hgfl
      have hgs' : gs' = [] := by
        cases gs' with
        | nil => rfl
        | cons y ys =>
          rw [List.flatten_cons] at hfl
          obtain ⟨hy, -⟩ := List.append_eq_nil.mp hfl
          exact absurd hy (hne y (List.mem_cons_of_mem _ (List.mem_cons_self _ _)))
      rw [hmap, hgs', hg', ← hx]
      rfl

/-! Helpers shared by the round-trip and non-empty-output claims. -/

theorem content_flatten (l : List Str) :
    content l.flatten = (l.map content).flatten := by
  induction l with
  | nil => rfl
  | cons x xs ih =>
    rw [List.flatten_cons, content_append, ih, List.map_cons, List.flatten_cons]

theorem content_sepOf (p : Provision) : content (sepOf p) = [] := by
  simp only [sepOf]
  split <;> decide

theorem content_rest_nil {header sep : Str} {rest : List Str}
    (h : strip (header ++ joinSp sep rest) = strip header) :
    content (joinSp sep rest) = [] := by
  have hc := content_of_strip_eq h
  rw [content_append] at hc
  exact List.append_right_eq_self.mp hc

theorem content_units (p : Provision)
    (hpar : p.paragraphs ≠ [] → p.text = joinBlank (p.paragraphs.map (·.text))) :
    ((unitsOf p).map content).flatten = content p.text := by
  by_cases hcond : p.type = "article".toList ∧ p.paragraphs ≠ []
  · rw [show unitsOf p = p.paragraphs.map (·.text) from by
      simp only [unitsOf]; rw [if_pos hcond]]
    rw [hpar hcond.2, content_joinBlank]
  · rw [show unitsOf p = splitSentences p.text from by
      simp only [unitsOf]; rw [if_neg hcond]]
    rw [← content_flatten, content_flatten_splitSentences]

theorem flatten_map_content (gs : List (List Str)) :
    (gs.map (fun g => (g.map content).flatten)).flatten =
      (gs.flatten.map content).flatten := by
  induction gs with
  | nil => rfl
  | cons g gs' ih =>
    rw [List.map_cons, List.flatten_cons, ih, List.flatten_cons,
      List.map_append, List.flatten_append]

/-- C10: a provision of a handled type whose text has at least one
non-whitespace character yields at least one chunk — the final-flush guard
(comparing the stripped accumulator with the stripped bare header) never
suppresses all output in that case.  Articles with paragraph structure are
assumed to satisfy the documented data-model invariant (text equals the
blank-line join of the paragraph texts). -/
theorem c10_nonempty_output (tok : Str → Nat) (p : Provision)
    (h : p.type ∈ coreTypes) (htext : content p.text ≠ [])
    (hpar : p.paragraphs ≠ [] → p.text = joinBlank (p.paragraphs.map (·.text))) :
    chunkOne tok p ≠ [] ∧ chunk_provisions tok [p] ≠ [] := by
  have hchunk : chunkOne tok p ≠ [] := by
    rcases chunkOne_eq tok p h with ⟨-, he⟩ | ⟨-, he⟩
    · rw [he]
      exact List.cons_ne_nil _ _
    · rw [he]
      obtain ⟨gs, rest, heq, -, hrest, hout⟩ :=
        packLoop_spec0 tok p (headerOf p) (sepOf p) (unitsOf p) 0
      rw [hout]
      intro hnil
      have hgs : gs = [] := buildChunks_eq_nil.mp hnil
      rw [hgs, List.flatten_nil, List.nil_append] at heq
      have hjoin : content (joinSp (sepOf p) (unitsOf p)) = [] := by
        rw [heq]
        exact content_rest_nil hrest
      rw [content_joinSp (content_sepOf p) (unitsOf p), content_units p hpar] at hjoin
      exact htext hjoin
  refine ⟨hchunk, ?_⟩
  show chunkOne tok p ++ chunk_provisions tok [] ≠ []
  rw [show chunk_provisions tok [] = [] from rfl, List.append_nil]
  exact hchunk

/-- C10 witness: the recital `exRec` has non-whitespace text and yields
chunks under `tok300`. -/
theorem c10_witness :
    exRec.type ∈ coreTypes ∧ content exRec.text ≠ [] ∧
    (exRec.paragraphs ≠ [] → exRec.text = joinBlank (exRec.paragraphs.map (·.text))) ∧
    chunkOne tok300 exRec ≠ [] ∧ chunk_provisions tok300 [exRec] ≠ [] :=
  ⟨by decide, by decide, by decide,
    (c10_nonempty_output tok300 exRec (by decide) (by decide) (by decide)).1,
    (c10_nonempty_output tok300 exRec (by decide) (by decide) (by decide)).2⟩

/-- C7: round trip — for a handled provision (articles with paragraph
structure assumed to satisfy the documented data-model invariant), the
header's non-whitespace content is a prefix of every chunk's non-whitespace
content, and concatenating the chunks' contents with that repeated header
content removed yields exactly the non-whitespace content of the
provision's original text (equality up to whitespace differences). -/
theorem c7_round_trip (tok : Str → Nat) (p : Provision) (h : p.type ∈ coreTypes)
    (hpar : p.paragraphs ≠ [] → p.text = joinBlank (p.paragraphs.map (·.text))) :
    (∀ c ∈ chunkOne tok p, content (headerOf p) <+: content c.text) ∧
    ((chunkOne tok p).map
        (fun c => (content c.text).drop (content (headerOf p)).length)).flatten =
      content p.text := by
  constructor
  · intro c hc
    rcases mem_chunkOne tok p h hc with ⟨-, hcm⟩ | ⟨g, -, j, hcm⟩
    · rw [hcm, make_chunk_text, content_append]
      exact List.prefix_append _ _
    · rw [hcm, make_chunk_text, content_strip, content_append]
      exact List.prefix_append _ _
  · rcases chunkOne_eq tok p h with ⟨-, he⟩ | ⟨-, he⟩
    · rw [he]
      show ((content (headerOf p ++ p.text)).drop (content (headerOf p)).length) ++ [] =
        content p.text
      rw [List.append_nil, content_append, List.drop_left]
    · rw [he]
      obtain ⟨gs, rest, heq, -, hrest, hout⟩ :=
        packLoop_spec0 tok p (headerOf p) (sepOf p) (unitsOf p) 0
      rw [hout]
      have hm : (buildChunks p (headerOf p) (sepOf p) gs 0).map
          (fun c => (content c.text).drop (content (headerOf p)).length) =
          gs.map (fun g => (g.map content).flatten) := by
        have h1 := buildChunks_texts p (headerOf p) (sepOf p) gs 0
        rw [show (fun c : Chunk => (content c.text).drop (content (headerOf p)).length) =
            ((fun t : Str => (content t).drop (content (headerOf p)).length) ∘
              (fun c : Chunk => c.text)) from rfl,
          ← List.map_map, h1, List.map_map]
        refine List.map_congr_left ?_
        intro g _
        show (content (strip (headerOf p ++ joinSp (sepOf p) g))).drop
          (content (headerOf p)).length = (g.map content).flatten
        rw [content_strip, content_append, List.drop_left,
          content_joinSp (content_sepOf p)]
      rw [hm, flatten_map_content]
      have hu : ((unitsOf p).map content).flatten =
          (gs.flatten.map content).flatten ++ (rest.map content).flatten := by
        rw [heq, List.map_append, List.flatten_append]
      have hr : (rest.map content).flatten = [] := by
        rw [← content_joinSp (content_sepOf p) rest]
        exact content_rest_nil hrest
      rw [← content_units p hpar, hu, hr, List.append_nil]

/-- C7 witness: the two-paragraph article `exArtPar` splits under `tok300`
and its chunks re-join to the original text content. -/
theorem c7_witness :
    exArtPar.type ∈ coreTypes ∧
    (exArtPar.paragraphs ≠ [] →
      exArtPar.text = joinBlank (exArtPar.paragraphs.map (·.text))) ∧
    ((chunkOne tok300 exArtPar).map
        (fun c => (content c.text).drop (content (headerOf exArtPar)).length)).flatten =
      content exArtPar.text :=
  ⟨by decide, by decide, (c7_round_trip tok300 exArtPar (by decide) (by decide)).2⟩

/-- C6 counterexample: the recital `cexWS` (title a lone space, empty
text) fits in one chunk whose text is the raw header, so the chunk's
trimmed text is empty — refuting the claim that every chunk has trimmed
text of positive length whose text begins with the header content. -/
theorem c6_counterexample :
    cexWS.type ∈ coreTypes ∧
    ¬ (∀ c ∈ chunkOne tokLen cexWS,
        0 < (strip c.text).length ∧ strip cexWS.title <+: c.text) := by
  decide

/-- C6 (amended): for every handled provision whose title has at least one
non-whitespace character, every output chunk has trimmed text of positive
length and the trimmed text begins with the trimmed title (the header
content). -/
theorem c6_nonempty_header_prefix (tok : Str → Nat) (p : Provision)
    (h : p.type ∈ coreTypes) (htitle : content p.title ≠ []) :
    ∀ c ∈ chunkOne tok p,
      0 < (strip c.text).length ∧ strip p.title <+: strip c.text := by
  intro c hc
  have key : ∀ r : Str,
      strip p.title <+: strip (p.title ++ r) ∧ strip (p.title ++ r) ≠ [] :=
    fun r => strip_append_of_content_ne r htitle
  rcases mem_chunkOne tok p h hc with ⟨-, hcm⟩ | ⟨g, -, j, hcm⟩
  · rw [hcm, make_chunk_text,
      show headerOf p ++ p.text = p.title ++ (['\n', '\n'] ++ p.text) from by
        rw [headerOf, List.append_assoc]]
    obtain ⟨h1, h2⟩ := key (['\n', '\n'] ++ p.text)
    exact ⟨List.length_pos.mpr h2, h1⟩
  · rw [hcm, make_chunk_text, strip_idem,
      show headerOf p ++ joinSp (sepOf p) g =
          p.title ++ (['\n', '\n'] ++ joinSp (sepOf p) g) from by
        rw [headerOf, List.append_assoc]]
    obtain ⟨h1, h2⟩ := key (['\n', '\n'] ++ joinSp (sepOf p) g)
    exact ⟨List.length_pos.mpr h2, h1⟩

/-- C6 witness: the short recital `exShort` with title `T`. -/
theorem c6_witness :
    exShort.type ∈ coreTypes ∧ content exShort.title ≠ [] ∧
    ∀ c ∈ chunkOne tokLen exShort,
      0 < (strip c.text).length ∧ strip exShort.title <+: strip c.text :=
  ⟨by decide, by decide,
    c6_nonempty_header_prefix tokLen exShort (by decide) (by decide)⟩

/-! Chunk-id bookkeeping for C3. -/

theorem chunkOne_ids (tok : Str → Nat) (p : Provision) :
    ∀ c ∈ chunkOne tok p,
      c.metadata.provision_id = p.id ∧ c.id = idFor p.id c.metadata.chunk_idx := by
  by_cases h : p.type ∈ coreTypes
  · intro c hc
    rcases mem_chunkOne tok p h hc with ⟨-, hcm⟩ | ⟨g, -, j, hcm⟩
    · rw [hcm]
      exact ⟨rfl, rfl⟩
    · rw [hcm]
      exact ⟨rfl, rfl⟩
  · intro c hc
    rw [chunkOne_other tok p h] at hc
    simp at hc

theorem chunkOne_ids_map (tok : Str → Nat) (p : Provision) :
    (chunkOne tok p).map (·.id) =
      (List.range (chunkOne tok p).length).map (idFor p.id) := by
  have h1 : (chunkOne tok p).map (·.id) =
      (chunkOne tok p).map (fun c => idFor p.id c.metadata.chunk_idx) :=
    List.map_congr_left (fun c hc => (chunkOne_ids tok p c hc).2)
  rw [h1,
    show (fun c : Chunk => idFor p.id c.metadata.chunk_idx) =
      (idFor p.id ∘ fun c : Chunk => c.metadata.chunk_idx) from rfl,
    ← List.map_map, chunkOne_idxs]

theorem chunkOne_ids_nodup (tok : Str → Nat) (p : Provision) (hfree : '#' ∉ p.id) :
    ((chunkOne tok p).map (·.id)).Nodup := by
  rw [chunkOne_ids_map]
  refine List.Nodup.map_on ?_ (List.nodup_range _)
  intro x _ y _ hxy
  exact (idFor_inj hfree hfree hxy).2

theorem mem_chunk_provisions (tok : Str → Nat) :
    ∀ (ps : List Provision) (c : Chunk),
      c ∈ chunk_provisions tok ps → ∃ p ∈ ps, c ∈ chunkOne tok p := by
  intro ps
  induction ps with
  | nil =>
    intro c hc
    rw [show chunk_provisions tok [] = [] from rfl] at hc
    simp at hc
  | cons p rest ih =>
    intro c hc
    rw [show chunk_provisions tok (p :: rest) =
        chunkOne tok p ++ chunk_provisions tok rest from rfl] at hc
    rcases List.mem_append.mp hc with h1 | h1
    · exact ⟨p, List.mem_cons_self _ _, h1⟩
    · obtain ⟨q, hq, hcq⟩ := ih c h1
      exact ⟨q, List.mem_cons_of_mem _ hq, hcq⟩

theorem mem_chunk_provisions_ids (tok : Str → Nat) :
    ∀ (ps : List Provision) (x : Str),
      x ∈ (chunk_provisions tok ps).map (·.id) →
      ∃ p ∈ ps, ∃ j, x = idFor p.id j := by
  intro ps x hx
  obtain ⟨c, hc, hcx⟩ := List.mem_map.mp hx
  obtain ⟨p, hp, hcp⟩ := mem_chunk_provisions tok ps c hc
  exact ⟨p, hp, c.metadata.chunk_idx, by rw [← hcx, (chunkOne_ids tok p c hcp).2]⟩

/-- C3 counterexample: the provisions `cexA` (id `a`, split under `tok300`
into chunks `a` and `a#1`) and `cexA1` (id `a#1`) have pairwise distinct
provision ids, yet the chunk ids of `chunk_provisions` collide. -/
theorem c3_counterexample :
    ([cexA, cexA1].map (·.id)).Nodup ∧
    ¬ ((chunk_provisions tok300 [cexA, cexA1]).map (·.id)).Nodup := by
  decide

/-- C3 (amended): every chunk's id is the bare provision id for
`chunk_idx = 0` and `provision_id ++ "#" ++ chunk_idx` for
`chunk_idx ≥ 1`; and for every input list of provisions with
pairwise-distinct ids none of which contains the character `#`, all chunk
ids in the output of `chunk_provisions` are pairwise distinct. -/
theorem c3_chunk_ids (tok : Str → Nat) (ps : List Provision)
    (hnd : (ps.map (·.id)).Nodup) (hfree : ∀ p ∈ ps, '#' ∉ p.id) :
    (∀ c ∈ chunk_provisions tok ps,
      (c.metadata.chunk_idx = 0 → c.id = c.metadata.provision_id) ∧
      (0 < c.metadata.chunk_idx →
        c.id = c.metadata.provision_id ++ '#' :: natToChars c.metadata.chunk_idx)) ∧
    ((chunk_provisions tok ps).map (·.id)).Nodup := by
  constructor
  · intro c hc
    obtain ⟨p, -, hcp⟩ := mem_chunk_provisions tok ps c hc
    obtain ⟨hpid, hid⟩ := chunkOne_ids tok p c hcp
    constructor
    · intro h0
      rw [hid, h0, hpid]
      rfl
    · intro h0
      rw [hid, hpid, idFor, if_pos h0]
  · revert hnd hfree
    induction ps with
    | nil => intro _ _; exact List.nodup_nil
    | cons p rest ih =>
      intro hnd hfree
      rw [List.map_cons, List.nodup_cons] at hnd
      rw [show chunk_provisions tok (p :: rest) =
          chunkOne tok p ++ chunk_provisions tok rest from rfl,
        List.map_append, List.nodup_append]
      refine ⟨chunkOne_ids_nodup tok p (hfree p (List.mem_cons_self _ _)),
        ih hnd.2 (fun q hq => hfree q (List.mem_cons_of_mem _ hq)), ?_⟩
      intro x hx1 hx2
      obtain ⟨c, hc, hcx⟩ := List.mem_map.mp hx1
      have h1 : x = idFor p.id c.metadata.chunk_idx := by
        rw [← hcx, (chunkOne_ids tok p c hc).2]
      obtain ⟨q, hq, j, hj⟩ := mem_chunk_provisions_ids tok rest x hx2
      have heqid : p.id = q.id :=
        (idFor_inj (hfree p (List.mem_cons_self _ _))
          (hfree q (List.mem_cons_of_mem _ hq)) (by rw [← h1, hj])).1
      exact hnd.1 (by rw [heqid]; exact List.mem_map_of_mem _ hq)

/-- C3 witness: two recitals with `#`-free distinct ids, one splitting into
two chunks under `tok300`. -/
theorem c3_witness :
    (([exRec, exShort]).map (·.id)).Nodup ∧
    (∀ p ∈ [exRec, exShort], '#' ∉ p.id) ∧
    ((chunk_provisions tok300 [exRec, exShort]).map (·.id)).Nodup :=
  ⟨by decide, by decide,
    (c3_chunk_ids tok300 [exRec, exShort] (by decide) (by decide)).2⟩

end AIAct
